import Mathlib

/-!
Verification of the Moon Survival ranking core.

The development embeds the ranking-scoring and aggregation logic of the
repository (the functions `calculate_score` and the per-item breakdown of
`evaluate` from `app.py`, and `calculate_team_ranking` /
`calculate_accuracy` from `moon-survival.py`) as executable Lean
definitions, and proves the specified properties about them.

Modelling conventions:
- Python `int` is embedded as `Int` (arbitrary precision in both).
- The float division `sum(scores) / len(scores)` is embedded as exact
  division in `ℚ`; only quotients of small integers arise here.
- Python `sorted` with a key is a stable sort; it is embedded as
  `List.mergeSort`, which is stable with the same specification.
- The early return of `calculate_team_ranking` on an empty mapping (which
  reports an error and computes no ranking) is embedded as the `error`
  branch of an `Except`.
- A Python `dict` (insertion ordered) is embedded as an association list.
-/

namespace MoonSurvival

/-- An item of the fixed reference table (`Item` dataclass in the source):
a name, a 1-based expert rank, and a description. -/
structure Item where
  name : String
  official_rank : Int
  description : String
deriving DecidableEq

/-- The fixed expert reference table `OFFICIAL_ITEMS`, identical in both
source files: 15 items with ranks 1..15. -/
def OFFICIAL_ITEMS : List Item := [
  ⟨"氧氣瓶", 1, "呼吸"⟩,
  ⟨"水", 2, "補充液體"⟩,
  ⟨"星圖", 3, "導航"⟩,
  ⟨"食物濃縮物", 4, "營養"⟩,
  ⟨"太陽能電池板", 5, "電力"⟩,
  ⟨"衣服補丁", 6, "防止失壓"⟩,
  ⟨"醫療箱", 7, "急救"⟩,
  ⟨"繩索", 8, "安全/移動"⟩,
  ⟨"降落傘", 9, "防止隕石碰撞"⟩,
  ⟨"救生筏", 10, "隱蔽所"⟩,
  ⟨"信號鏡", 11, "通信"⟩,
  ⟨"手電筒", 12, "照明"⟩,
  ⟨"火柴", 13, "點火"⟩,
  ⟨"月球地圖", 14, "導航輔助"⟩,
  ⟨"磁羅盤", 15, "導航（不太有效）"⟩]

/-- The reference names in reference order (positions 0..14). -/
def refNames : List String := OFFICIAL_ITEMS.map Item.name

/-- The dictionary `off_map = {item.name: item.official_rank - 1 for item in
OFFICIAL_ITEMS}` of `calculate_score` in `app.py`, as a lookup function
(names are unique, so first match and dict agree). -/
def offMapLookup (n : String) : Option Int :=
  (OFFICIAL_ITEMS.find? (fun it => it.name == n)).map (fun it => it.official_rank - 1)

/-- The loop body accumulation of `calculate_score`, with the running
0-based position `i` made explicit. -/
def scoreAux : Nat → List String → Int
  | _, [] => 0
  | i, n :: rest =>
    (match offMapLookup n with
      | some r => |r - (i : Int)|
      | none => (OFFICIAL_ITEMS.length : Int)) + scoreAux (i + 1) rest

/-- `calculate_score` from `app.py`: sum over 0-based positions `i` of
`|off_map[name] - i|` when the name is in the reference table, and of
`len(OFFICIAL_ITEMS)` otherwise. -/
def calculate_score (submitted_names : List String) : Int :=
  scoreAux 0 submitted_names

/-- The dictionary `off_pos_map = {it.name: it.official_rank for it in
OFFICIAL_ITEMS}` of the `evaluate` handler in `app.py` (1-based ranks). -/
def offPosLookup (n : String) : Option Int :=
  (OFFICIAL_ITEMS.find? (fun it => it.name == n)).map Item.official_rank

/-- One row of the `per_item` breakdown built by the `evaluate` handler. -/
structure PerItemEntry where
  name : String
  submitted_rank : Nat
  official_rank : Option Int
  diff : Option Int
deriving DecidableEq, Inhabited

/-- The loop of the `evaluate` handler that builds `per_item`, with the
running 0-based position `i` made explicit. -/
def perItemAux : Nat → List String → List PerItemEntry
  | _, [] => []
  | i, n :: rest =>
    { name := n
      submitted_rank := i + 1
      official_rank := offPosLookup n
      diff := match offPosLookup n with
        | none => none
        | some r => some |r - ((i : Int) + 1)| } :: perItemAux (i + 1) rest

/-- The `per_item` breakdown of the `evaluate` handler in `app.py`: for each
0-based position `i` and name, the 1-based submitted rank, the optional
1-based official rank, and the optional difference
`|official_rank - (i + 1)|` (both `None` for an unrecognized name). -/
def per_item (order : List String) : List PerItemEntry :=
  perItemAux 0 order

/-- The generator expression of `calculate_team_ranking` in
`moon-survival.py`: the 1-based position of the first entry of
`person_ranking` whose name is `name`, or `0` when there is none. -/
def rankOfItem (person_ranking : List Item) (name : String) : Nat :=
  match person_ranking.findIdx? (fun x => x.name == name) with
  | some i => i + 1
  | none => 0

/-- The value `item_scores[name]` computed by `calculate_team_ranking`:
the list `scores` of per-submission ranks, summed and divided by its
length (exact rational division in place of Python float division). -/
def item_scores (individual_rankings : List (String × List Item)) (name : String) : ℚ :=
  let scores : List Nat := individual_rankings.map (fun pr => rankOfItem pr.2 name)
  (scores.sum : ℚ) / (scores.length : ℚ)

/-- The failure mode of aggregation: invoked with zero submissions. -/
inductive AggregateError
  | EmptyInputError
deriving DecidableEq

/-- The sort step of `calculate_team_ranking`: Python's stable `sorted` of
the reference items with key `item_scores[item.name]`, embedded as the
stable `List.mergeSort`. -/
def team_sort (individual_rankings : List (String × List Item)) : List Item :=
  OFFICIAL_ITEMS.mergeSort (fun a b =>
    decide (item_scores individual_rankings a.name ≤ item_scores individual_rankings b.name))

/-- `calculate_team_ranking` from `moon-survival.py`: on an empty mapping it
reports failure and computes no ranking (embedded as the `error` branch);
otherwise it stably sorts the reference items ascending by their mean
position `item_scores[item.name]` across the submissions. -/
def calculate_team_ranking (individual_rankings : List (String × List Item)) :
    Except AggregateError (List Item) :=
  if individual_rankings.isEmpty then
    Except.error AggregateError.EmptyInputError
  else
    Except.ok (team_sort individual_rankings)

/-- The loop body accumulation of `calculate_accuracy`, with the running
0-based position `i` made explicit. -/
def accuracyAux : Nat → List Item → Int
  | _, [] => 0
  | i, item :: rest => |(item.official_rank - 1) - (i : Int)| + accuracyAux (i + 1) rest

/-- `calculate_accuracy` from `moon-survival.py`: sum over 0-based positions
`i` of `|(official_rank - 1) - i|` for the item at position `i`. -/
def calculate_accuracy (ranking : List Item) : Int :=
  accuracyAux 0 ranking

/-- The per-position contribution to `score`, stated from the spec's words
(§4.1): `|r - i|` for a recognized name with 0-based reference rank `r`,
and the constant `N = 15` for an unrecognized name. -/
def specContribution (n : String) (i : Nat) : Int :=
  match offMapLookup n with
  | some r0 => |r0 - (i : Int)|
  | none => 15

/-- The row the `evaluate` loop appends at 0-based position `i` for name
`n` (used to describe `per_item` positionally). -/
def mkEntry (i : Nat) (n : String) : PerItemEntry :=
  { name := n
    submitted_rank := i + 1
    official_rank := offPosLookup n
    diff := match offPosLookup n with
      | none => none
      | some r => some |r - ((i : Int) + 1)| }

/-- Stated from the spec's words (§4): the position a submission assigns to
an item name is `1 + index of first match by name`, or `0` if absent. -/
def specSubmissionPosition (sub : List Item) (name : String) : Nat :=
  match sub.findIdx? (fun x => x.name == name) with
  | some i => 1 + i
  | none => 0

/-- Stated from the spec's words (§4): an item's aggregate value is the
arithmetic mean of its per-submission positions. -/
def specMeanPosition (individual_rankings : List (String × List Item)) (name : String) : ℚ :=
  ((individual_rankings.map (fun pr => specSubmissionPosition pr.2 name)).sum : ℚ) /
    (individual_rankings.length : ℚ)

lemma official_length_int : (OFFICIAL_ITEMS.length : Int) = 15 := by decide

lemma refNames_nodup : refNames.Nodup := by decide

lemma official_nodup : OFFICIAL_ITEMS.Nodup := by decide

lemma lookup_indexOf : ∀ n ∈ refNames, offMapLookup n = some (refNames.indexOf n : Int) := by
  decide

lemma scoreAux_nonneg (names : List String) : ∀ k : Nat, 0 ≤ scoreAux k names := by
  induction names with
  | nil => intro k; simp [scoreAux]
  | cons n rest ih =>
    intro k
    have h1 : 0 ≤ scoreAux (k + 1) rest := ih (k + 1)
    have h2 : (0 : Int) ≤ (match offMapLookup n with
        | some r => |r - (k : Int)|
        | none => (OFFICIAL_ITEMS.length : Int)) := by
      cases offMapLookup n with
      | some r => exact abs_nonneg _
      | none => simp
    simpa only [scoreAux] using add_nonneg h2 h1

lemma scoreAux_eq_sum (names : List String) : ∀ k : Nat,
    scoreAux k names = ((names.enumFrom k).map (fun p => specContribution p.2 p.1)).sum := by
  induction names with
  | nil => intro k; simp [scoreAux]
  | cons n rest ih =>
    intro k
    cases hl : offMapLookup n with
    | some r =>
      simp only [scoreAux, List.enumFrom_cons, List.map_cons, List.sum_cons, ih (k + 1),
        specContribution, hl]
    | none =>
      simp only [scoreAux, List.enumFrom_cons, List.map_cons, List.sum_cons, ih (k + 1),
        specContribution, hl, official_length_int]

lemma mem_of_lookup_eq_some {n : String} {r : Int} (h : offMapLookup n = some r) :
    n ∈ refNames := by
  unfold offMapLookup at h
  cases hf : OFFICIAL_ITEMS.find? (fun it => it.name == n) with
  | none => rw [hf] at h; simp at h
  | some it =>
    have hmem := List.mem_of_find?_eq_some hf
    have hname : it.name = n := by
      have := List.find?_some hf
      exact beq_iff_eq.mp this
    exact hname ▸ List.mem_map_of_mem Item.name hmem

lemma scoreAux_zero_lookup (names : List String) : ∀ k : Nat, scoreAux k names = 0 →
    ∀ i : Nat, i < names.length → offMapLookup (names.getD i "") = some ((k + i : Nat) : Int) := by
  induction names with
  | nil => intro k _ i hi; simp at hi
  | cons n rest ih =>
    intro k h0 i hi
    have hhead : (0 : Int) ≤ (match offMapLookup n with
        | some r => |r - (k : Int)|
        | none => (OFFICIAL_ITEMS.length : Int)) := by
      cases offMapLookup n with
      | some r => exact abs_nonneg _
      | none => simp
    have htail : 0 ≤ scoreAux (k + 1) rest := scoreAux_nonneg rest (k + 1)
    have hsplit : (match offMapLookup n with
        | some r => |r - (k : Int)|
        | none => (OFFICIAL_ITEMS.length : Int)) + scoreAux (k + 1) rest = 0 := by
      simpa only [scoreAux] using h0
    have hheadz : (match offMapLookup n with
        | some r => |r - (k : Int)|
        | none => (OFFICIAL_ITEMS.length : Int)) = 0 := by linarith
    have htailz : scoreAux (k + 1) rest = 0 := by linarith
    cases i with
    | zero =>
      simp only [List.getD_cons_zero]
      cases hl : offMapLookup n with
      | none =>
        rw [hl, official_length_int] at hheadz
        exact absurd hheadz (by norm_num)
      | some r =>
        rw [hl] at hheadz
        have : r = (k : Int) := by
          have := abs_eq_zero.mp hheadz
          omega
        rw [this]
        norm_num
    | succ j =>
      have hj : j < rest.length := by simpa using hi
      have := ih (k + 1) htailz j hj
      simp only [List.getD_cons_succ]
      have harith : k + 1 + j = k + (j + 1) := by omega
      rw [harith] at this
      exact this

/-- C1: `calculate_score` sums one contribution per 0-based position `i`: a
name matching a reference item with 0-based rank `r0` contributes `|r0 - i|`,
and an unrecognized name contributes exactly `N = 15` at every position. -/
theorem score_sums_positional_contributions :
    (∀ names : List String,
      calculate_score names = (names.enum.map (fun p => specContribution p.2 p.1)).sum) ∧
    (∀ n : String, offMapLookup n = none → ∀ i : Nat, specContribution n i = 15) := by
  constructor
  · intro names
    simpa [List.enum] using scoreAux_eq_sum names 0
  · intro n hn i
    simp [specContribution, hn]

/-- Witness for C1: the sum decomposition at a concrete submission, and the
constant penalty of the unrecognized name `X` at two different positions. -/
theorem score_sums_positional_contributions_witness :
    calculate_score ["X", "水"] =
      ((["X", "水"] : List String).enum.map (fun p => specContribution p.2 p.1)).sum ∧
    specContribution "X" 0 = 15 ∧ specContribution "X" 5 = 15 :=
  ⟨score_sums_positional_contributions.1 ["X", "水"],
   score_sums_positional_contributions.2 "X" (by decide) 0,
   score_sums_positional_contributions.2 "X" (by decide) 5⟩

/-- C2: for every permutation of the reference names the score is 0 exactly
when the submission is the reference order, and every score is ≥ 0. -/
theorem score_zero_iff_reference_order :
    (∀ p : List String, p.Perm refNames → (calculate_score p = 0 ↔ p = refNames)) ∧
    (∀ names : List String, 0 ≤ calculate_score names) := by
  constructor
  · intro p hp
    constructor
    · intro h0
      have hlen : p.length = refNames.length := hp.length_eq
      apply List.ext_get hlen
      intro i h1 h2
      have hi := scoreAux_zero_lookup p 0 h0 i h1
      simp only [Nat.zero_add] at hi
      rw [List.getD_eq_getElem _ _ h1] at hi
      have hmem := mem_of_lookup_eq_some hi
      rw [lookup_indexOf _ hmem] at hi
      have hidx : refNames.indexOf p[i] = i := by exact_mod_cast Option.some.inj hi
      have hgetidx := List.getElem_indexOf (a := p[i]) (l := refNames) (hidx ▸ h2)
      simp only [List.get_eq_getElem]
      simp only [hidx] at hgetidx
      exact hgetidx.symm
    · intro h
      subst h
      decide
  · intro names
    exact scoreAux_nonneg names 0

/-- Witness for C2: the reference order itself scores 0, and a concrete
submission has non-negative score. -/
theorem score_zero_iff_reference_order_witness :
    (calculate_score refNames = 0 ↔ refNames = refNames) ∧
    0 ≤ calculate_score refNames.reverse :=
  ⟨score_zero_iff_reference_order.1 refNames (List.Perm.refl _),
   score_zero_iff_reference_order.2 refNames.reverse⟩

lemma perItemAux_getD (names : List String) : ∀ k i : Nat, i < names.length →
    (perItemAux k names).getD i default = mkEntry (k + i) (names.getD i "") := by
  induction names with
  | nil => intro k i hi; simp at hi
  | cons n rest ih =>
    intro k i hi
    cases i with
    | zero => simp [perItemAux, mkEntry]
    | succ j =>
      have hj : j < rest.length := by simpa using hi
      have hrec := ih (k + 1) j hj
      simp only [perItemAux, List.getD_cons_succ, List.getD_cons_succ]
      rw [hrec]
      congr 1
      omega

lemma offMap_eq_offPos_sub_one (n : String) :
    offMapLookup n = (offPosLookup n).map (fun r => r - 1) := by
  unfold offMapLookup offPosLookup
  cases OFFICIAL_ITEMS.find? (fun it => it.name == n) <;> simp

/-- C4: at every position `i` whose name has a 1-based reference rank `r`,
the `per_item` breakdown records `difference = |r - (i + 1)|`, which equals
`|(r - 1) - i|`, the very contribution of that position to `score`; for an
unrecognized name both the rank and the difference fields are the `none`
sentinel. -/
theorem detail_agrees_with_score :
    ∀ (order : List String) (i : Nat), i < order.length →
      ((per_item order).getD i default).submitted_rank = i + 1 ∧
      (∀ r : Int, offPosLookup (order.getD i "") = some r →
        ((per_item order).getD i default).official_rank = some r ∧
        ((per_item order).getD i default).diff = some |r - ((i : Int) + 1)| ∧
        |r - ((i : Int) + 1)| = |(r - 1) - (i : Int)| ∧
        specContribution (order.getD i "") i = |(r - 1) - (i : Int)|) ∧
      (offPosLookup (order.getD i "") = none →
        ((per_item order).getD i default).official_rank = none ∧
        ((per_item order).getD i default).diff = none) := by
  intro order i hi
  have hg := perItemAux_getD order 0 i hi
  simp only [Nat.zero_add] at hg
  simp only [per_item, hg]
  generalize order.getD i "" = n
  refine ⟨by simp [mkEntry], ?_, ?_⟩
  · intro r hr
    refine ⟨by simp [mkEntry, hr], by simp [mkEntry, hr], ?_, ?_⟩
    · congr 1
      ring
    · simp [specContribution, offMap_eq_offPos_sub_one, hr]
  · intro hr
    exact ⟨by simp [mkEntry, hr], by simp [mkEntry, hr]⟩

/-- Witness for C4: the first reference item at position 0 has rank 1,
difference `|1 - 1| = 0`, matching its score contribution. -/
theorem detail_agrees_with_score_witness :
    ((per_item refNames).getD 0 default).official_rank = some 1 ∧
    ((per_item refNames).getD 0 default).diff = some |(1 : Int) - ((0 : Int) + 1)| ∧
    |(1 : Int) - ((0 : Int) + 1)| = |((1 : Int) - 1) - (0 : Int)| ∧
    specContribution (refNames.getD 0 "") 0 = |((1 : Int) - 1) - (0 : Int)| :=
  (detail_agrees_with_score refNames 0 (by decide)).2.1 1 (by decide)

lemma lookup_official : ∀ it ∈ OFFICIAL_ITEMS,
    offMapLookup it.name = some (it.official_rank - 1) := by decide

lemma accuracyAux_eq_sum (ranking : List Item) : ∀ k : Nat,
    accuracyAux k ranking =
      ((ranking.enumFrom k).map (fun p => |(p.2.official_rank - 1) - (p.1 : Int)|)).sum := by
  induction ranking with
  | nil => intro k; simp [accuracyAux]
  | cons it rest ih =>
    intro k
    simp only [accuracyAux, List.enumFrom_cons, List.map_cons, List.sum_cons, ih (k + 1)]

lemma accuracyAux_eq_scoreAux (items : List Item) : ∀ k : Nat,
    (∀ x ∈ items, x ∈ OFFICIAL_ITEMS) →
    accuracyAux k items = scoreAux k (items.map Item.name) := by
  induction items with
  | nil => intro k _; simp [accuracyAux, scoreAux]
  | cons it rest ih =>
    intro k hmem
    have h1 : it ∈ OFFICIAL_ITEMS := hmem it (by simp)
    have h2 := lookup_official it h1
    simp only [accuracyAux, List.map_cons, scoreAux, h2]
    rw [ih (k + 1) (fun x hx => hmem x (by simp [hx]))]

/-- C7: `calculate_accuracy` sums `|(official_rank - 1) - i|` over 0-based
positions, and on any permutation of all reference items it coincides with
`calculate_score` applied to the corresponding name sequence. -/
theorem accuracy_matches_score :
    (∀ ranking : List Item,
      calculate_accuracy ranking =
        ((ranking.enum).map (fun p => |(p.2.official_rank - 1) - (p.1 : Int)|)).sum) ∧
    (∀ items : List Item, items.Perm OFFICIAL_ITEMS →
      calculate_accuracy items = calculate_score (items.map Item.name)) := by
  constructor
  · intro ranking
    simpa [List.enum] using accuracyAux_eq_sum ranking 0
  · intro items hperm
    exact accuracyAux_eq_scoreAux items 0 (fun x hx => hperm.mem_iff.mp hx)

/-- Witness for C7: the reversed reference list, a permutation of all 15
items, has accuracy equal to the score of its name sequence. -/
theorem accuracy_matches_score_witness :
    calculate_accuracy OFFICIAL_ITEMS.reverse =
      calculate_score (OFFICIAL_ITEMS.reverse.map Item.name) ∧
    calculate_accuracy [] =
      (([] : List Item).enum.map (fun p => |(p.2.official_rank - 1) - (p.1 : Int)|)).sum :=
  ⟨accuracy_matches_score.2 OFFICIAL_ITEMS.reverse (List.reverse_perm _),
   accuracy_matches_score.1 []⟩

/-- C3: aggregation invoked on the empty mapping fails at once with
`EmptyInputError`; no team ranking is produced. -/
theorem empty_aggregation_fails :
    calculate_team_ranking [] = Except.error AggregateError.EmptyInputError ∧
    (calculate_team_ranking []).isOk = false :=
  ⟨rfl, rfl⟩

lemma rankOfItem_eq_specSubmissionPosition (sub : List Item) (name : String) :
    rankOfItem sub name = specSubmissionPosition sub name := by
  unfold rankOfItem specSubmissionPosition
  cases sub.findIdx? (fun x => x.name == name) with
  | none => rfl
  | some i => simp [Nat.add_comm]

/-- C5: each item's aggregate value is the arithmetic mean over the
submissions of `1 + index of first match by name`; a submission omitting
the item contributes `0` (strictly less than the `≥ 1` contribution of any
submission containing it), so omission lowers the mean. -/
theorem aggregate_value_is_mean :
    (∀ rankings : List (String × List Item), rankings ≠ [] → ∀ name : String,
      item_scores rankings name = specMeanPosition rankings name) ∧
    (∀ (sub : List Item) (name : String), (∀ x ∈ sub, x.name ≠ name) →
      rankOfItem sub name = 0) ∧
    (∀ (sub : List Item) (name : String), (∃ x ∈ sub, x.name = name) →
      1 ≤ rankOfItem sub name) := by
  refine ⟨?_, ?_, ?_⟩
  · intro rankings _ name
    simp [item_scores, specMeanPosition, rankOfItem_eq_specSubmissionPosition]
  · intro sub name hnone
    have hfind : sub.findIdx? (fun x => x.name == name) = none := by
      rw [List.findIdx?_eq_none_iff]
      intro x hx
      simpa using hnone x hx
    simp [rankOfItem, hfind]
  · intro sub name hex
    cases hfind : sub.findIdx? (fun x => x.name == name) with
    | none =>
      exfalso
      rw [List.findIdx?_eq_none_iff] at hfind
      obtain ⟨x, hx, hname⟩ := hex
      have := hfind x hx
      simp [hname] at this
    | some i =>
      simp [rankOfItem, hfind]

/-- Witness for C5: the mean equation on a one-submission mapping, the zero
contribution of an absent item, and the positive rank of a present item. -/
theorem aggregate_value_is_mean_witness :
    item_scores [("甲", OFFICIAL_ITEMS)] "水" = specMeanPosition [("甲", OFFICIAL_ITEMS)] "水" ∧
    rankOfItem [] "水" = 0 ∧
    1 ≤ rankOfItem OFFICIAL_ITEMS "水" :=
  ⟨aggregate_value_is_mean.1 [("甲", OFFICIAL_ITEMS)] (by decide) "水",
   aggregate_value_is_mean.2.1 [] "水" (by decide),
   aggregate_value_is_mean.2.2 OFFICIAL_ITEMS "水" (by decide)⟩

lemma teamLe_trans (f : Item → ℚ) : ∀ a b c : Item,
    decide (f a ≤ f b) = true → decide (f b ≤ f c) = true → decide (f a ≤ f c) = true := by
  intro a b c h1 h2
  exact decide_eq_true (le_trans (of_decide_eq_true h1) (of_decide_eq_true h2))

lemma teamLe_total (f : Item → ℚ) : ∀ a b : Item,
    (decide (f a ≤ f b) || decide (f b ≤ f a)) = true := by
  intro a b
  rcases le_total (f a) (f b) with h | h
  · simp [decide_eq_true h]
  · simp [decide_eq_true h]

/-- C6: for every non-empty mapping the team ranking is the reference items
sorted ascending by mean position: it is a permutation of the reference
items, pairwise nondecreasing in `item_scores`, and two items with equal
mean appear in the order the reference list gives them (stability). -/
theorem team_ranking_sorted_and_stable :
    ∀ rankings : List (String × List Item), rankings ≠ [] →
      calculate_team_ranking rankings = Except.ok (team_sort rankings) ∧
      (team_sort rankings).Perm OFFICIAL_ITEMS ∧
      (team_sort rankings).Pairwise
        (fun a b => item_scores rankings a.name ≤ item_scores rankings b.name) ∧
      (∀ a b : Item, [a, b].Sublist OFFICIAL_ITEMS →
        item_scores rankings a.name = item_scores rankings b.name →
        [a, b].Sublist (team_sort rankings)) := by
  intro R hR
  refine ⟨?_, List.mergeSort_perm _ _, ?_, ?_⟩
  · cases R with
    | nil => exact absurd rfl hR
    | cons p t => rfl
  · have h := @List.sorted_mergeSort Item
      (fun a b : Item => decide (item_scores R a.name ≤ item_scores R b.name))
      (teamLe_trans (fun it => item_scores R it.name))
      (teamLe_total (fun it => item_scores R it.name)) OFFICIAL_ITEMS
    exact h.imp (fun hab => of_decide_eq_true hab)
  · intro a b hsub heq
    apply List.sublist_mergeSort
      (teamLe_trans (fun it => item_scores R it.name))
      (teamLe_total (fun it => item_scores R it.name)) ?_ hsub
    rw [List.pairwise_cons]
    refine ⟨?_, by simp⟩
    intro b' hb'
    rw [List.mem_singleton] at hb'
    subst hb'
    exact decide_eq_true (le_of_eq heq)

/-- Witness for C6: a mapping with one empty submission, on which every item
has mean 0; in particular the first two reference items tie and keep their
reference order in the team ranking. -/
theorem team_ranking_sorted_and_stable_witness :
    calculate_team_ranking [("甲", ([] : List Item))] =
      Except.ok (team_sort [("甲", ([] : List Item))]) ∧
    (team_sort [("甲", ([] : List Item))]).Perm OFFICIAL_ITEMS ∧
    (team_sort [("甲", ([] : List Item))]).Pairwise
      (fun a b => item_scores [("甲", ([] : List Item))] a.name ≤
        item_scores [("甲", ([] : List Item))] b.name) ∧
    ([⟨"氧氣瓶", 1, "呼吸"⟩, ⟨"水", 2, "補充液體"⟩] : List Item).Sublist
      (team_sort [("甲", ([] : List Item))]) := by
  have h := team_ranking_sorted_and_stable [("甲", ([] : List Item))] (by decide)
  have hzero : ∀ nm : String, item_scores [("甲", ([] : List Item))] nm = 0 := by
    intro nm
    simp [item_scores, rankOfItem]
  exact ⟨h.1, h.2.1, h.2.2.1,
    h.2.2.2 ⟨"氧氣瓶", 1, "呼吸"⟩ ⟨"水", 2, "補充液體"⟩ (by decide)
      (by rw [hzero, hzero])⟩

/-- C10: for every non-empty mapping, whatever the submissions contain, the
team ranking is a permutation of the full reference set: it has length 15
and contains each reference item exactly once. -/
theorem team_ranking_always_permutation :
    ∀ rankings : List (String × List Item), rankings ≠ [] →
      calculate_team_ranking rankings = Except.ok (team_sort rankings) ∧
      (team_sort rankings).Perm OFFICIAL_ITEMS ∧
      (team_sort rankings).length = 15 ∧
      (∀ it ∈ OFFICIAL_ITEMS, (team_sort rankings).count it = 1) := by
  intro R hR
  have hperm : (team_sort R).Perm OFFICIAL_ITEMS := List.mergeSort_perm _ _
  refine ⟨?_, hperm, ?_, ?_⟩
  · cases R with
    | nil => exact absurd rfl hR
    | cons p t => rfl
  · rw [hperm.length_eq]
    rfl
  · intro it hit
    rw [hperm.count_eq]
    exact List.count_eq_one_of_mem official_nodup hit

/-- Witness for C10: a mapping holding one submission whose single entry is
not even a reference item still yields a full permutation of the 15
reference items. -/
theorem team_ranking_always_permutation_witness :
    calculate_team_ranking [("乙", ([⟨"X", 99, "junk"⟩] : List Item))] =
      Except.ok (team_sort [("乙", ([⟨"X", 99, "junk"⟩] : List Item))]) ∧
    (team_sort [("乙", ([⟨"X", 99, "junk"⟩] : List Item))]).Perm OFFICIAL_ITEMS ∧
    (team_sort [("乙", ([⟨"X", 99, "junk"⟩] : List Item))]).length = 15 ∧
    (team_sort [("乙", ([⟨"X", 99, "junk"⟩] : List Item))]).count ⟨"氧氣瓶", 1, "呼吸"⟩ = 1 := by
  have h := team_ranking_always_permutation [("乙", ([⟨"X", 99, "junk"⟩] : List Item))] (by decide)
  exact ⟨h.1, h.2.1, h.2.2.1, h.2.2.2 ⟨"氧氣瓶", 1, "呼吸"⟩ (by decide)⟩

lemma rankOfItem_indexOf : ∀ (sub : List Item), (sub.map Item.name).Nodup →
    ∀ item ∈ sub, rankOfItem sub item.name = sub.indexOf item + 1 := by
  intro sub
  induction sub with
  | nil => intro _ item hmem; simp at hmem
  | cons y rest ih =>
    intro hnodup item hmem
    rw [List.map_cons, List.nodup_cons] at hnodup
    obtain ⟨hyname, hrestnodup⟩ := hnodup
    rcases List.mem_cons.mp hmem with heq | hmemr
    · subst heq
      simp [rankOfItem, List.findIdx?_cons, List.indexOf_cons_self]
    · have hne : y.name ≠ item.name := by
        intro e
        exact hyname (e ▸ List.mem_map_of_mem Item.name hmemr)
    -- first entry does not match, so the search continues in `rest`
      have hbeq : (y.name == item.name) = false := by
        simpa using hne
      have hy_ne_item : y ≠ item := by
        intro e
        exact hne (by rw [e])
      have hrec := ih hrestnodup item hmemr
      have hfs := @List.findIdx?_succ Item rest (fun x => x.name == item.name) 0
      rw [List.indexOf_cons_ne rest hy_ne_item]
      cases hf : rest.findIdx? (fun x => x.name == item.name) with
      | none =>
        rw [rankOfItem, hf] at hrec
        simp at hrec
      | some j =>
        rw [rankOfItem, hf] at hrec
        simp only at hrec
        rw [rankOfItem, List.findIdx?_cons, hbeq]
        simp only [Bool.false_eq_true, if_false, hfs, hf, Option.map_some']
        omega

lemma mergeSort_rank_eq (sub : List Item) (h : sub.Perm OFFICIAL_ITEMS) :
    OFFICIAL_ITEMS.mergeSort (fun a b =>
      decide ((rankOfItem sub a.name : ℚ) ≤ (rankOfItem sub b.name : ℚ))) = sub := by
  have hnames : (sub.map Item.name).Nodup := by
    have hmapperm : (sub.map Item.name).Perm refNames := h.map Item.name
    exact hmapperm.symm.nodup refNames_nodup
  have hsubnodup : sub.Nodup := h.symm.nodup official_nodup
  have hrank := rankOfItem_indexOf sub hnames
  have hperm : (OFFICIAL_ITEMS.mergeSort (fun a b =>
      decide ((rankOfItem sub a.name : ℚ) ≤ (rankOfItem sub b.name : ℚ)))).Perm
      OFFICIAL_ITEMS := List.mergeSort_perm _ _
  have houtnodup : (OFFICIAL_ITEMS.mergeSort (fun a b =>
      decide ((rankOfItem sub a.name : ℚ) ≤ (rankOfItem sub b.name : ℚ)))).Nodup :=
    hperm.symm.nodup official_nodup
  have hpair := @List.sorted_mergeSort Item
    (fun a b : Item => decide ((rankOfItem sub a.name : ℚ) ≤ (rankOfItem sub b.name : ℚ)))
    (teamLe_trans (fun it => (rankOfItem sub it.name : ℚ)))
    (teamLe_total (fun it => (rankOfItem sub it.name : ℚ))) OFFICIAL_ITEMS
  have hstrict : (OFFICIAL_ITEMS.mergeSort (fun a b =>
      decide ((rankOfItem sub a.name : ℚ) ≤ (rankOfItem sub b.name : ℚ)))).Pairwise
      (fun a b : Item => (rankOfItem sub a.name : ℚ) < (rankOfItem sub b.name : ℚ)) := by
    refine (hpair.and houtnodup).imp_of_mem ?_
    intro a b ha hb hab
    obtain ⟨hle, hne⟩ := hab
    have hle2 : (rankOfItem sub a.name : ℚ) ≤ (rankOfItem sub b.name : ℚ) :=
      of_decide_eq_true hle
    refine lt_of_le_of_ne hle2 ?_
    intro heq
    apply hne
    have ha2 : a ∈ sub := h.mem_iff.mpr (hperm.mem_iff.mp ha)
    have hb2 : b ∈ sub := h.mem_iff.mpr (hperm.mem_iff.mp hb)
    rw [hrank a ha2, hrank b hb2] at heq
    have hsucc : sub.indexOf a + 1 = sub.indexOf b + 1 := by exact_mod_cast heq
    have hidx : sub.indexOf a = sub.indexOf b := by omega
    have hlta : sub.indexOf a < sub.length := List.indexOf_lt_length.mpr ha2
    have hltb : sub.indexOf b < sub.length := List.indexOf_lt_length.mpr hb2
    have e1 := List.getElem_indexOf hlta
    have e2 := List.getElem_indexOf hltb
    rw [← e1, ← e2]
    simp only [hidx]
  have hsubpair : sub.Pairwise
      (fun a b : Item => (rankOfItem sub a.name : ℚ) < (rankOfItem sub b.name : ℚ)) := by
    rw [List.pairwise_iff_get]
    intro i j hij
    rw [hrank _ (List.get_mem sub i.1 i.2), hrank _ (List.get_mem sub j.1 j.2)]
    rw [List.get_indexOf hsubnodup i, List.get_indexOf hsubnodup j]
    have hij2 : (i : ℕ) < (j : ℕ) := hij
    exact_mod_cast Nat.succ_lt_succ hij2
  have hps : (OFFICIAL_ITEMS.mergeSort (fun a b =>
      decide ((rankOfItem sub a.name : ℚ) ≤ (rankOfItem sub b.name : ℚ)))).Perm sub :=
    hperm.trans h.symm
  letI : IsAntisymm Item
      (fun a b : Item => (rankOfItem sub a.name : ℚ) < (rankOfItem sub b.name : ℚ)) :=
    ⟨fun a b h1 h2 => absurd h2 (lt_asymm h1)⟩
  exact List.eq_of_perm_of_sorted hps hstrict hsubpair

/-- C8: aggregating a mapping holding exactly one submission that is a
permutation of all 15 reference items returns that submission's order
verbatim (the mean reduces to the single position). -/
theorem single_submission_team_ranking (person : String) (sub : List Item)
    (h : sub.Perm OFFICIAL_ITEMS) :
    calculate_team_ranking [(person, sub)] = Except.ok sub := by
  have hkey : ∀ nm : String, item_scores [(person, sub)] nm = (rankOfItem sub nm : ℚ) := by
    intro nm
    simp [item_scores]
  have hfun : (fun a b : Item =>
      decide (item_scores [(person, sub)] a.name ≤ item_scores [(person, sub)] b.name)) =
      (fun a b : Item =>
        decide ((rankOfItem sub a.name : ℚ) ≤ (rankOfItem sub b.name : ℚ))) := by
    funext a b
    rw [hkey, hkey]
  have hts : team_sort [(person, sub)] = sub := by
    unfold team_sort
    rw [hfun]
    exact mergeSort_rank_eq sub h
  have hok : calculate_team_ranking [(person, sub)] =
      Except.ok (team_sort [(person, sub)]) := rfl
  rw [hok, hts]

/-- Witness for C8: the single reversed-reference submission is returned
verbatim as the team ranking. -/
theorem single_submission_team_ranking_witness :
    calculate_team_ranking [("丙", OFFICIAL_ITEMS.reverse)] =
      Except.ok OFFICIAL_ITEMS.reverse :=
  single_submission_team_ranking "丙" OFFICIAL_ITEMS.reverse (List.reverse_perm _)

lemma abs_natCast_sub (a b : Nat) :
    |((a : Int)) - (b : Int)| + 2 * min ((a : Int)) ((b : Int)) = (a : Int) + b := by
  rcases le_total a b with hab | hab
  · rw [abs_of_nonpos (sub_nonpos.mpr (Nat.cast_le.mpr hab)),
      min_eq_left (show (a : Int) ≤ (b : Int) from Nat.cast_le.mpr hab)]
    ring
  · rw [abs_of_nonneg (sub_nonneg.mpr (Nat.cast_le.mpr hab)),
      min_eq_right (show (b : Int) ≤ (a : Int) from Nat.cast_le.mpr hab)]
    ring

lemma card_fin15_filter_lt (k : Nat) (hk : k ≤ 15) :
    (Finset.univ.filter (fun j : Fin 15 => (j : Nat) < k)).card = k := by
  have himg : Finset.univ.filter (fun j : Fin 15 => (j : Nat) < k) =
      (Finset.univ : Finset (Fin k)).map ⟨Fin.castLE hk, Fin.castLE_injective hk⟩ := by
    ext j
    simp only [Finset.mem_filter, Finset.mem_univ, true_and, Finset.mem_map,
      Function.Embedding.coeFn_mk]
    constructor
    · intro hj
      exact ⟨⟨(j : Nat), hj⟩, rfl⟩
    · rintro ⟨a, rfl⟩
      exact lt_of_lt_of_le a.2 (le_refl k)
  rw [himg, Finset.card_map, Finset.card_univ, Fintype.card_fin]

lemma card_filter_comp (g : Fin 15 → Fin 15) (hg : Function.Bijective g)
    (p : Fin 15 → Prop) [DecidablePred p] :
    (Finset.univ.filter (fun i => p (g i))).card = (Finset.univ.filter p).card := by
  have himg : Finset.univ.filter (fun i => p (g i)) =
      (Finset.univ.filter p).image (Equiv.ofBijective g hg).symm := by
    ext i
    simp only [Finset.mem_filter, Finset.mem_univ, true_and, Finset.mem_image]
    constructor
    · intro hp
      refine ⟨g i, hp, ?_⟩
      rw [← Equiv.ofBijective_apply g hg i]
      exact Equiv.symm_apply_apply _ i
    · rintro ⟨j, hj, rfl⟩
      have hgj : g ((Equiv.ofBijective g hg).symm j) = j := by
        rw [← Equiv.ofBijective_apply g hg]
        exact Equiv.apply_symm_apply _ j
      rw [hgj]
      exact hj
  rw [himg, Finset.card_image_of_injective _ (Equiv.ofBijective g hg).symm.injective]

lemma sum_min_ge (g : Fin 15 → Fin 15) (hg : Function.Bijective g) :
    49 ≤ ∑ i : Fin 15, min ((g i : Nat)) ((i : Nat)) := by
  have hlayer : ∑ k ∈ Finset.Icc 1 7,
      (Finset.univ.filter (fun i : Fin 15 => k ≤ min ((g i : Nat)) ((i : Nat)))).card ≤
      ∑ i : Fin 15, min ((g i : Nat)) ((i : Nat)) := by
    rw [Finset.sum_congr rfl (fun k _ => Finset.card_filter _ _), Finset.sum_comm]
    apply Finset.sum_le_sum
    intro i _
    rw [← Finset.card_filter]
    calc (Finset.filter (fun k => k ≤ min ((g i : Nat)) ((i : Nat))) (Finset.Icc 1 7)).card
        ≤ (Finset.Icc 1 (min ((g i : Nat)) ((i : Nat)))).card := by
          apply Finset.card_le_card
          intro k hk
          simp only [Finset.mem_filter, Finset.mem_Icc] at hk
          simp only [Finset.mem_Icc]
          omega
      _ = min ((g i : Nat)) ((i : Nat)) := by
          rw [Nat.card_Icc]
          omega
  have hbound : ∀ k ∈ Finset.Icc 1 7, 15 - 2 * k ≤
      (Finset.univ.filter (fun i : Fin 15 => k ≤ min ((g i : Nat)) ((i : Nat)))).card := by
    intro k hk
    rw [Finset.mem_Icc] at hk
    have hk15 : k ≤ 15 := by omega
    have hsubset : Finset.univ.filter (fun i : Fin 15 => min ((g i : Nat)) ((i : Nat)) < k) ⊆
        Finset.univ.filter (fun i : Fin 15 => (g i : Nat) < k) ∪
        Finset.univ.filter (fun i : Fin 15 => (i : Nat) < k) := by
      intro i hi
      simp only [Finset.mem_filter, Finset.mem_univ, true_and] at hi
      simp only [Finset.mem_union, Finset.mem_filter, Finset.mem_univ, true_and]
      omega
    have h1 : (Finset.univ.filter (fun i : Fin 15 => (g i : Nat) < k)).card = k := by
      rw [card_filter_comp g hg (fun j : Fin 15 => (j : Nat) < k)]
      exact card_fin15_filter_lt k hk15
    have h2 : (Finset.univ.filter (fun i : Fin 15 => (i : Nat) < k)).card = k :=
      card_fin15_filter_lt k hk15
    have hcmpl : (Finset.univ.filter
        (fun i : Fin 15 => min ((g i : Nat)) ((i : Nat)) < k)).card ≤ 2 * k := by
      calc (Finset.univ.filter (fun i : Fin 15 => min ((g i : Nat)) ((i : Nat)) < k)).card
          ≤ (Finset.univ.filter (fun i : Fin 15 => (g i : Nat) < k) ∪
             Finset.univ.filter (fun i : Fin 15 => (i : Nat) < k)).card :=
            Finset.card_le_card hsubset
        _ ≤ (Finset.univ.filter (fun i : Fin 15 => (g i : Nat) < k)).card +
            (Finset.univ.filter (fun i : Fin 15 => (i : Nat) < k)).card :=
            Finset.card_union_le _ _
        _ = 2 * k := by omega
    have hneg : Finset.univ.filter (fun i : Fin 15 => ¬ k ≤ min ((g i : Nat)) ((i : Nat))) =
        Finset.univ.filter (fun i : Fin 15 => min ((g i : Nat)) ((i : Nat)) < k) := by
      apply Finset.filter_congr
      intro i _
      constructor
      · intro h
        omega
      · intro h
        omega
    have htotal := Finset.filter_card_add_filter_neg_card_eq_card
      (s := (Finset.univ : Finset (Fin 15)))
      (p := fun i : Fin 15 => k ≤ min ((g i : Nat)) ((i : Nat)))
    rw [hneg] at htotal
    have hcard : (Finset.univ : Finset (Fin 15)).card = 15 := by
      rw [Finset.card_univ, Fintype.card_fin]
    omega
  calc (49 : Nat) = ∑ k ∈ Finset.Icc 1 7, (15 - 2 * k) := by decide
    _ ≤ ∑ k ∈ Finset.Icc 1 7,
        (Finset.univ.filter (fun i : Fin 15 => k ≤ min ((g i : Nat)) ((i : Nat)))).card :=
        Finset.sum_le_sum hbound
    _ ≤ ∑ i : Fin 15, min ((g i : Nat)) ((i : Nat)) := hlayer

lemma sum_abs_sub_le (g : Fin 15 → Fin 15) (hg : Function.Bijective g) :
    ∑ i : Fin 15, |((g i : Nat) : Int) - ((i : Nat) : Int)| ≤ 112 := by
  have hid : ∀ i : Fin 15, |((g i : Nat) : Int) - ((i : Nat) : Int)| =
      ((g i : Nat) : Int) + ((i : Nat) : Int) -
        2 * min (((g i : Nat)) : Int) (((i : Nat)) : Int) := by
    intro i
    have := abs_natCast_sub ((g i : Nat)) ((i : Nat))
    linarith
  rw [Finset.sum_congr rfl (fun i _ => hid i), Finset.sum_sub_distrib,
    Finset.sum_add_distrib, ← Finset.mul_sum]
  have hgsum : ∑ i : Fin 15, ((g i : Nat) : Int) = ∑ i : Fin 15, ((i : Nat) : Int) :=
    hg.sum_comp (fun j : Fin 15 => ((j : Nat) : Int))
  have hisum : ∑ i : Fin 15, ((i : Nat) : Int) = 105 := by decide
  have hminsum : (49 : Int) ≤
      ∑ i : Fin 15, min (((g i : Nat)) : Int) (((i : Nat)) : Int) := by
    calc (49 : Int) ≤ ((∑ i : Fin 15, min ((g i : Nat)) ((i : Nat)) : Nat) : Int) := by
          exact_mod_cast sum_min_ge g hg
      _ = ∑ i : Fin 15, min (((g i : Nat)) : Int) (((i : Nat)) : Int) := by
          push_cast
          rfl
  linarith

lemma scoreAux_eq_finsum (names : List String) : ∀ k : Nat,
    scoreAux k names = ∑ i ∈ Finset.range names.length,
      specContribution (names.getD i "") (k + i) := by
  induction names with
  | nil => intro k; simp [scoreAux]
  | cons n rest ih =>
    intro k
    rw [List.length_cons, Finset.sum_range_succ']
    simp only [List.getD_cons_succ, List.getD_cons_zero, Nat.add_zero]
    have hsc : ∑ x ∈ Finset.range rest.length,
        specContribution (rest.getD x "") (k + (x + 1)) =
        ∑ x ∈ Finset.range rest.length,
        specContribution (rest.getD x "") (k + 1 + x) :=
      Finset.sum_congr rfl (fun x _ => by
        have hx : k + (x + 1) = k + 1 + x := by omega
        rw [hx])
    rw [hsc, ← ih (k + 1)]
    cases hl : offMapLookup n with
    | some r =>
      simp only [scoreAux, specContribution, hl]
      ring
    | none =>
      simp only [scoreAux, specContribution, hl, official_length_int]
      ring

lemma score_le_112 (q : List String) (hq : q.Perm refNames) : calculate_score q ≤ 112 := by
  have hlen : q.length = 15 := by
    rw [hq.length_eq]
    rfl
  have hqnodup : q.Nodup := hq.symm.nodup refNames_nodup
  have hmem : ∀ i : Nat, i < 15 → q.getD i "" ∈ refNames := by
    intro i hi
    have hi2 : i < q.length := by omega
    rw [List.getD_eq_getElem _ _ hi2]
    exact hq.mem_iff.mp (List.getElem_mem hi2)
  have hidxlt : ∀ i : Nat, i < 15 → refNames.indexOf (q.getD i "") < 15 := by
    intro i hi
    have h := List.indexOf_lt_length.mpr (hmem i hi)
    have hrl : refNames.length = 15 := rfl
    omega
  set g : Fin 15 → Fin 15 :=
    fun i => ⟨refNames.indexOf (q.getD (i : Nat) ""), hidxlt (i : Nat) i.2⟩ with hgdef
  have hginj : Function.Injective g := by
    intro i j hij
    have h1 : refNames.indexOf (q.getD (i : Nat) "") =
        refNames.indexOf (q.getD (j : Nat) "") := by
      have := congrArg Fin.val hij
      simpa [hgdef] using this
    have hmi := hmem (i : Nat) i.2
    have hmj := hmem (j : Nat) j.2
    have e1 := List.getElem_indexOf (List.indexOf_lt_length.mpr hmi)
    have e2 := List.getElem_indexOf (List.indexOf_lt_length.mpr hmj)
    have heq : q.getD (i : Nat) "" = q.getD (j : Nat) "" := by
      rw [← e1, ← e2]
      simp only [h1]
    have hi2 : (i : Nat) < q.length := by omega
    have hj2 : (j : Nat) < q.length := by omega
    rw [List.getD_eq_getElem _ _ hi2, List.getD_eq_getElem _ _ hj2] at heq
    have hfin : (⟨(i : Nat), hi2⟩ : Fin q.length) = ⟨(j : Nat), hj2⟩ :=
      (hqnodup.get_inj_iff).mp (by simpa [List.get_eq_getElem] using heq)
    have hval : (i : Nat) = (j : Nat) := by
      simpa [Fin.mk.injEq] using hfin
    exact Fin.ext hval
  have hgbij : Function.Bijective g := Finite.injective_iff_bijective.mp hginj
  have hsum : calculate_score q =
      ∑ i ∈ Finset.range 15, specContribution (q.getD i "") i := by
    have h := scoreAux_eq_finsum q 0
    rw [hlen] at h
    simpa [calculate_score] using h
  rw [hsum, Finset.sum_range]
  have hterm : ∀ i : Fin 15, specContribution (q.getD (i : Nat) "") (i : Nat) =
      |((g i : Nat) : Int) - ((i : Nat) : Int)| := by
    intro i
    have hlook := lookup_indexOf _ (hmem (i : Nat) i.2)
    simp only [specContribution, hlook, hgdef]
  rw [Finset.sum_congr rfl (fun i _ => hterm i)]
  exact sum_abs_sub_le g hgbij

/-- C9 counterexample: the claim quantifies over every permutation `p`, but
reversing the already-reversed reference order yields the reference order
itself, which scores 0 while another permutation scores 112. -/
theorem reverse_not_always_max :
    ¬ (∀ p : List String, p.Perm refNames →
        ∀ q : List String, q.Perm refNames →
          calculate_score q ≤ calculate_score p.reverse) := by
  intro hclaim
  have h := hclaim refNames.reverse (List.reverse_perm _) refNames.reverse (List.reverse_perm _)
  rw [List.reverse_reverse] at h
  have e1 : calculate_score refNames = 0 := by decide
  have e2 : calculate_score refNames.reverse = 112 := by decide
  rw [e1, e2] at h
  exact absurd h (by norm_num)

/-- C9 (amended): reversing the reference order yields the maximum score
among all permutations of the reference names, and for `N = 15` this
maximum equals `⌊N² / 2⌋ = 112`. -/
theorem reverse_reference_is_max :
    calculate_score refNames.reverse = 112 ∧
    (112 : Int) = 15 ^ 2 / 2 ∧
    (∀ q : List String, q.Perm refNames →
      calculate_score q ≤ calculate_score refNames.reverse) := by
  have h112 : calculate_score refNames.reverse = 112 := by decide
  refine ⟨h112, by decide, ?_⟩
  intro q hq
  rw [h112]
  exact score_le_112 q hq

/-- Witness for C9 (amended): the reference order itself scores no more
than the reversed reference order. -/
theorem reverse_reference_is_max_witness :
    calculate_score refNames ≤ calculate_score refNames.reverse :=
  reverse_reference_is_max.2.2 refNames (List.Perm.refl _)

end MoonSurvival
